import Mathlib

/-!
Verification of the sol2ink code-generation back end (`src/assembler.rs`).

The assembler consumes a Contract Intermediate Representation (CIR) and emits a
stream of output tokens.  We embed the CIR data model and every emitter of
`assembler.rs` as executable Lean definitions over an explicit token type, and
prove the specification's claims about them.

Modelling conventions:
* `proc_macro2::TokenStream` is modelled as `List Tok`.  Fixed fragments written
  literally inside a `quote!` block become `Tok.t`, runtime strings spliced via
  `TokenStream::from_str` become `Tok.fromStr`, identifiers built with
  `format_ident!` become `Tok.identTok`, doc attributes `#[doc = s]` become
  `Tok.docAttr`, the layout macros `_comment_!(s);` and `_blank_!();` become
  `Tok.commentMarker` and `Tok.blankMarker`, and brace groups open and close
  with `Tok.lbrace` / `Tok.rbrace`.
* The `HashSet<String>` of imports is modelled as a `List String` representing
  one iteration order of the set; claims about the set add a `Nodup` hypothesis.
* Rust's `Vec::sort()` on `String` (lexicographic byte order, which on UTF-8
  agrees with codepoint order) is modelled by `List.insertionSort (· ≤ ·)`
  at Mathlib's lexicographic linear order on `String`.
-/

namespace Sol2Ink

/-- Model of a `proc_macro2::TokenStream` element, at the granularity the
assembler produces them (see the module docstring). -/
inductive Tok where
  | t : String → Tok
  | fromStr : String → Tok
  | identTok : String → Tok
  | docAttr : String → Tok
  | commentMarker : String → Tok
  | blankMarker : Tok
  | lbrace : Tok
  | rbrace : Tok
deriving DecidableEq

/-- Modelled from the spec: `Param` of the CIR (`structures.rs` is not part of
the sources; the data model follows spec section 3). -/
structure Param where
  name : String
  param_type : String
deriving DecidableEq

/-- Modelled from the spec: `Statement` of the CIR. -/
structure Statement where
  content : String
  comment : Bool
deriving DecidableEq

/-- Modelled from the spec: `FunctionHeader` of the CIR. -/
structure FunctionHeader where
  name : String
  params : List Param
  return_params : List Param
  external : Bool
  view : Bool
  payable : Bool
  comments : List String
deriving DecidableEq

/-- Modelled from the spec: `Function` of the CIR. -/
structure Function where
  header : FunctionHeader
  body : List Statement
deriving DecidableEq

/-- Modelled from the spec: `EventField` of the CIR. -/
structure EventField where
  name : String
  field_type : String
  indexed : Bool
deriving DecidableEq

/-- Modelled from the spec: `Event` of the CIR. -/
structure Event where
  name : String
  fields : List EventField
  comments : List String
deriving DecidableEq

/-- Modelled from the spec: `Enum` of the CIR. -/
structure Enum where
  name : String
  values : List String
  comments : List String
deriving DecidableEq

/-- Modelled from the spec: `StructField` of the CIR. -/
structure StructField where
  name : String
  field_type : String
deriving DecidableEq

/-- Modelled from the spec: `Struct` of the CIR. -/
structure Struct where
  name : String
  fields : List StructField
  comments : List String
deriving DecidableEq

/-- Modelled from the spec: `ContractField` of the CIR. -/
structure ContractField where
  name : String
  field_type : String
deriving DecidableEq

/-- Modelled from the spec: `Contract` of the CIR.  The `imports` hash set is
modelled as a list in iteration order. -/
structure Contract where
  name : String
  imports : List String
  events : List Event
  enums : List Enum
  structs : List Struct
  fields : List ContractField
  constructor : Function
  functions : List Function
  comments : List String
deriving DecidableEq

/-- Modelled from the spec: `Interface` of the CIR. -/
structure Interface where
  name : String
  imports : List String
  events : List Event
  enums : List Enum
  structs : List Struct
  function_headers : List FunctionHeader
  comments : List String
deriving DecidableEq

/-! ### The snake-casing step

Modelled from the spec: the casing conversion `to_case(Case::Snake)` is
provided by the external `convert_case` crate, which is not part of this
repository.  Following the crate's documented default behaviour, the input is
split into words at delimiters (underscore, hyphen, space), at
lowercase-to-uppercase, letter-to-digit and digit-to-letter transitions, and
before the last uppercase letter of an acronym run followed by a lowercase
letter; each word is lowercased (ASCII, per the spec's identifier invariant)
and the words are joined with underscores. -/

/-- Word delimiter characters: underscore, hyphen, space. -/
def isDelim (c : Char) : Bool := decide (c.toNat = 95 ∨ c.toNat = 45 ∨ c.toNat = 32)

/-- ASCII uppercase test (the guard used by the lowercasing step). -/
def charUpper (c : Char) : Bool := decide (65 ≤ c.toNat ∧ c.toNat ≤ 90)

/-- ASCII lowercase test. -/
def charLower (c : Char) : Bool := decide (97 ≤ c.toNat ∧ c.toNat ≤ 122)

/-- ASCII digit test. -/
def charDigit (c : Char) : Bool := decide (48 ≤ c.toNat ∧ c.toNat ≤ 57)

/-- ASCII lowercasing of a single character. -/
def lowerChar (c : Char) : Char := if charUpper c then Char.ofNat (c.toNat + 32) else c

/-- The two-character word boundaries: lower→upper, upper→digit, digit→upper,
digit→lower, lower→digit. -/
def isBoundary2 (a b : Char) : Bool :=
  (charLower a && charUpper b) || (charUpper a && charDigit b) || (charDigit a && charUpper b) ||
    (charDigit a && charLower b) || (charLower a && charDigit b)

/-- The acronym boundary: between two uppercase letters followed by a
lowercase letter. -/
def acronymBoundary (a : Char) : List Char → Bool
  | b :: c :: _ => charUpper a && charUpper b && charLower c
  | _ => false

/-- Does a word boundary fall immediately after character `a`, given the
remaining input? -/
def boundaryAfter (a : Char) : List Char → Bool
  | [] => false
  | b :: bs => isBoundary2 a b || acronymBoundary a (b :: bs)

/-- Split the input into words: `acc` is the current word, reversed. -/
def wordsAux : List Char → List Char → List (List Char)
  | acc, [] => [acc.reverse]
  | acc, c :: cs =>
    if isDelim c then acc.reverse :: wordsAux [] cs
    else if boundaryAfter c cs then (c :: acc).reverse :: wordsAux [] cs
    else wordsAux (c :: acc) cs

/-- Join words with single underscores. -/
def joinUnderscore : List (List Char) → List Char
  | [] => []
  | [w] => w
  | w :: ws => w ++ '_' :: joinUnderscore ws

/-- Snake-casing on character lists: split into words, drop empty words,
lowercase each word, join with underscores. -/
def toSnakeList (l : List Char) : List Char :=
  joinUnderscore (((wordsAux [] l).filter (fun w => !w.isEmpty)).map (List.map lowerChar))

/-- The snake-casing step `to_case(Case::Snake)` on strings. -/
def toSnakeCase (s : String) : String := String.mk (toSnakeList s.data)

/-! ### The emitters of `assembler.rs` -/

/-- `signature` (`assembler.rs`): the file banner, parametrised by the
build-time `CARGO_PKG_VERSION` constant. -/
def signature (VERSION : String) : List Tok :=
  [Tok.commentMarker ("Generated with Sol2Ink v" ++ VERSION ++ "\n"),
   Tok.commentMarker "https://github.com/Supercolony-net/sol2ink\n",
   Tok.blankMarker]

/-- `assemble_contract_comments` (`assembler.rs`): one doc attribute per
comment string. -/
def assemble_contract_comments (comments : List String) : List Tok :=
  comments.map Tok.docAttr

/-- `assemble_imports` (`assembler.rs`): sort the imports and emit each one,
then a blank-line marker. -/
def assemble_imports (imports : List String) : List Tok :=
  (List.insertionSort (· ≤ ·) imports).map Tok.fromStr ++ [Tok.blankMarker]

/-- `assemble_enums` (`assembler.rs`): per enum, comments, `pub enum` with the
verbatim name, the variants each followed by a comma, and a blank line. -/
def assemble_enums (enums : List Enum) : List Tok :=
  enums.flatMap fun e =>
    e.comments.map Tok.docAttr ++
      [Tok.t "pub enum", Tok.fromStr e.name, Tok.lbrace] ++
      e.values.flatMap (fun v => [Tok.fromStr v, Tok.t ","]) ++
      [Tok.rbrace, Tok.blankMarker]

/-- One event field of `assemble_events`: an `#[ink(topic)]` attribute when
indexed, then the snake-cased name and the type. -/
def eventFieldToks (f : EventField) : List Tok :=
  (if f.indexed then [Tok.t "#[ink(topic)]"] else []) ++
    [Tok.identTok (toSnakeCase f.name), Tok.t ":", Tok.fromStr f.field_type, Tok.t ","]

/-- `assemble_events` (`assembler.rs`). -/
def assemble_events (events : List Event) : List Tok :=
  events.flatMap fun ev =>
    ev.comments.map Tok.docAttr ++
      [Tok.t "#[ink(event)]", Tok.t "pub struct", Tok.fromStr ev.name, Tok.lbrace] ++
      ev.fields.flatMap eventFieldToks ++
      [Tok.rbrace, Tok.blankMarker]

/-- `assemble_storage` (`assembler.rs`): the single storage struct; the
contract type name is kept verbatim, field names are snake-cased. -/
def assemble_storage (contract_name : String) (fields : List ContractField) : List Tok :=
  [Tok.t "#[ink(storage)]", Tok.t "#[derive(Default, SpreadAllocate)]",
   Tok.t "pub struct", Tok.identTok contract_name, Tok.lbrace] ++
    fields.flatMap
      (fun f => [Tok.identTok (toSnakeCase f.name), Tok.t ":", Tok.fromStr f.field_type, Tok.t ","]) ++
    [Tok.rbrace, Tok.blankMarker]

/-- `assemble_structs` (`assembler.rs`). -/
def assemble_structs (structs : List Struct) : List Tok :=
  structs.flatMap fun s =>
    s.comments.map Tok.docAttr ++
      [Tok.t "#[derive(Default, Encode, Decode)]",
       Tok.t "#[cfg_attr(feature = \"std\", derive(scale_info::TypeInfo))]",
       Tok.t "pub struct", Tok.fromStr s.name, Tok.lbrace] ++
      s.fields.flatMap
        (fun f => [Tok.identTok (toSnakeCase f.name), Tok.t ":", Tok.fromStr f.field_type, Tok.t ","]) ++
      [Tok.rbrace, Tok.blankMarker]

/-- The constructor parameter list of `assemble_constructor`:
`snake_name: Type,` for each parameter, in input order. -/
def constructorParams : List Param → List Tok
  | [] => []
  | p :: t =>
    [Tok.identTok (toSnakeCase p.name), Tok.t ":", Tok.fromStr p.param_type, Tok.t ","] ++
      constructorParams t

/-- The constructor body of `assemble_constructor`: every statement is
rendered as the line comment `// <content>`. -/
def constructorBody : List Statement → List Tok
  | [] => []
  | st :: t => Tok.fromStr ("// " ++ st.content) :: constructorBody t

/-- `assemble_constructor` (`assembler.rs`). -/
def assemble_constructor (constructor : Function) : List Tok :=
  [Tok.t "#[ink(constructor)]", Tok.t "pub fn new", Tok.t "("] ++
    constructorParams constructor.header.params ++
    [Tok.t ")", Tok.t "->", Tok.t "Self", Tok.lbrace,
     Tok.t "ink_lang::codegen::initialize_contract", Tok.t "(",
     Tok.t "|instance: &mut Self|", Tok.lbrace] ++
    constructorBody constructor.body ++
    [Tok.rbrace, Tok.t ")", Tok.rbrace, Tok.blankMarker]

/-- The message attribute of `assemble_functions`: present exactly when the
function is external, `payable` selecting the payable form. -/
def functionMessage (h : FunctionHeader) : List Tok :=
  if h.external then
    if h.payable then [Tok.t "#[ink(message, payable)]"] else [Tok.t "#[ink(message)]"]
  else []

/-- The receiver of `assemble_functions`: `&self` when `view`, else
`&mut self`. -/
def functionView (h : FunctionHeader) : List Tok :=
  [Tok.fromStr (if h.view then "&self" else "&mut self")]

/-- The parameter list of `assemble_functions`: `, snake_name: Type` appended
per parameter. -/
def functionParams : List Param → List Tok
  | [] => []
  | p :: t =>
    [Tok.t ",", Tok.identTok (toSnakeCase p.name), Tok.t ":", Tok.fromStr p.param_type] ++
      functionParams t

/-- The comma-separated return types of `assemble_functions`. -/
def returnTypesList : List Param → List Tok
  | [] => []
  | [p] => [Tok.fromStr p.param_type]
  | p :: q :: t => Tok.fromStr p.param_type :: Tok.t "," :: returnTypesList (q :: t)

/-- The return annotation of `assemble_functions` (lines 360-384): absent for
no return parameters, `-> (..)` for more than one, `-> ..` for exactly one. -/
def functionReturnParams (rps : List Param) : List Tok :=
  if rps.isEmpty then []
  else if rps.length > 1 then [Tok.t "->", Tok.t "("] ++ returnTypesList rps ++ [Tok.t ")"]
  else [Tok.t "->"] ++ returnTypesList rps

/-- The body of `assemble_functions`: commentary statements become commentary
markers, other statements are tokenized verbatim. -/
def functionBody : List Statement → List Tok
  | [] => []
  | st :: t =>
    (if st.comment then [Tok.commentMarker st.content] else [Tok.fromStr st.content]) ++
      functionBody t

/-- One function item of `assemble_functions`: message attribute, name
(`pub fn <snake>` when external, `fn _<snake>` otherwise), receiver,
parameters, return annotation, body, and the `todo!()` sentinel. -/
def assembleFunction (f : Function) : List Tok :=
  functionMessage f.header ++
    [Tok.fromStr ((if f.header.external then "pub fn " else "fn _") ++ toSnakeCase f.header.name)] ++
    [Tok.t "("] ++ functionView f.header ++ functionParams f.header.params ++ [Tok.t ")"] ++
    functionReturnParams f.header.return_params ++
    [Tok.lbrace] ++ functionBody f.body ++ [Tok.t "todo!()", Tok.rbrace]

/-- `assemble_functions` (`assembler.rs`): the function items with a blank-line
marker between consecutive items (none after the last). -/
def assemble_functions : List Function → List Tok
  | [] => []
  | [f] => assembleFunction f
  | f :: g :: t => assembleFunction f ++ Tok.blankMarker :: assemble_functions (g :: t)

/-- The message attribute of `assemble_function_headers` (same logic as
`functionMessage`; the source duplicates it). -/
def headerMessage (h : FunctionHeader) : List Tok :=
  if h.external then
    if h.payable then [Tok.t "#[ink(message, payable)]"] else [Tok.t "#[ink(message)]"]
  else []

/-- The receiver of `assemble_function_headers`. -/
def headerView (h : FunctionHeader) : List Tok :=
  [Tok.fromStr (if h.view then "&self" else "&mut self")]

/-- The parameter list of `assemble_function_headers`. -/
def headerParams : List Param → List Tok
  | [] => []
  | p :: t =>
    [Tok.t ",", Tok.identTok (toSnakeCase p.name), Tok.t ":", Tok.fromStr p.param_type] ++
      headerParams t

/-- The comma-separated return types of `assemble_function_headers`. -/
def headerTypesList : List Param → List Tok
  | [] => []
  | [p] => [Tok.fromStr p.param_type]
  | p :: q :: t => Tok.fromStr p.param_type :: Tok.t "," :: headerTypesList (q :: t)

/-- The return annotation of `assemble_function_headers` (lines 474-498). -/
def headerReturnParams (rps : List Param) : List Tok :=
  if rps.isEmpty then []
  else if rps.length > 1 then [Tok.t "->", Tok.t "("] ++ headerTypesList rps ++ [Tok.t ")"]
  else [Tok.t "->"] ++ headerTypesList rps

/-- One trait-method item of `assemble_function_headers`: doc comments, message
attribute, `fn <snake>` (no name-prefix adjustment), receiver, parameters,
return annotation, terminating semicolon. -/
def headerItem (h : FunctionHeader) : List Tok :=
  h.comments.map Tok.docAttr ++ headerMessage h ++
    [Tok.fromStr ("fn " ++ toSnakeCase h.name), Tok.t "("] ++
    headerView h ++ headerParams h.params ++ [Tok.t ")"] ++
    headerReturnParams h.return_params ++ [Tok.t ";"]

/-- `assemble_function_headers` (`assembler.rs`): the header items with a
blank-line marker between consecutive items (none after the last). -/
def assemble_function_headers : List FunctionHeader → List Tok
  | [] => []
  | [h] => headerItem h
  | h :: g :: t => headerItem h ++ Tok.blankMarker :: assemble_function_headers (g :: t)

/-- `assemble_contract` (`assembler.rs`): the fixed top-level composition. -/
def assemble_contract (VERSION : String) (contract : Contract) : List Tok :=
  [Tok.t "#![cfg_attr(not(feature = \"std\"), no_std)]",
   Tok.t "#![feature(min_specialization)]", Tok.blankMarker] ++
    signature VERSION ++
    assemble_contract_comments contract.comments ++
    [Tok.t "#[brush::contract]", Tok.t "pub mod", Tok.identTok (toSnakeCase contract.name),
     Tok.lbrace] ++
    assemble_imports contract.imports ++
    assemble_events contract.events ++
    assemble_enums contract.enums ++
    assemble_structs contract.structs ++
    assemble_storage contract.name contract.fields ++
    [Tok.t "impl", Tok.identTok (toSnakeCase contract.name), Tok.lbrace] ++
    assemble_constructor contract.constructor ++
    assemble_functions contract.functions ++
    [Tok.rbrace, Tok.rbrace]

/-- `assemble_interface` (`assembler.rs`): signature, shared sections, the
`Ref` alias, and the trait with the function headers.  The `comments` field of
the interface is not read anywhere in the source. -/
def assemble_interface (VERSION : String) (interface : Interface) : List Tok :=
  signature VERSION ++
    assemble_imports interface.imports ++
    assemble_events interface.events ++
    assemble_enums interface.enums ++
    assemble_structs interface.structs ++
    [Tok.t "#[brush::wrapper]", Tok.t "pub type", Tok.fromStr (interface.name ++ "Ref"),
     Tok.t "=", Tok.t "dyn", Tok.fromStr interface.name, Tok.t ";", Tok.blankMarker,
     Tok.t "#[brush::trait_definition]", Tok.t "pub trait", Tok.fromStr interface.name,
     Tok.lbrace] ++
    assemble_function_headers interface.function_headers ++
    [Tok.rbrace]

/-- Is a token a doc attribute? -/
def isDocAttr : Tok → Bool
  | Tok.docAttr _ => true
  | _ => false

/-! ### Proof-support predicates for the snake-casing development -/

/-- A character that can appear inside an already snake-cased word: not a
delimiter and not uppercase. -/
def cleanChar (c : Char) : Bool := !isDelim c && !charUpper c

/-- A word all of whose characters are clean and which contains no internal
two-character boundary: re-splitting it yields the word itself. -/
def cleanWord : List Char → Bool
  | [] => true
  | [a] => cleanChar a
  | a :: b :: t => cleanChar a && !isBoundary2 a b && cleanWord (b :: t)

/-- A raw word as produced by the splitter: no delimiter characters and no
internal two-character boundary. -/
def noB2 : List Char → Bool
  | [] => true
  | [a] => !isDelim a
  | a :: b :: t => !isDelim a && !isBoundary2 a b && noB2 (b :: t)

/-! ### Concrete sample inputs used by the witnesses -/

/-- Sample external function with no parameters. -/
def sampleFn : Function := ⟨⟨"myFn", [], [], true, false, false, []⟩, []⟩

/-- Sample empty constructor. -/
def ctor0 : Function := ⟨⟨"new", [], [], true, false, false, []⟩, []⟩

/-- Sample constructor with one parameter and one body statement. -/
def sampleCtor : Function :=
  ⟨⟨"ctorName", [⟨"initValue", "u128"⟩], [], true, false, false, []⟩, [⟨"a = b", false⟩]⟩

/-- Sample constructor input A for the dependence claim. -/
def ctorA : Function :=
  ⟨⟨"fooBar", [⟨"x", "u8"⟩], [⟨"r", "u8"⟩], true, true, true, ["c"]⟩, [⟨"s", true⟩]⟩

/-- Sample constructor input B: same parameters and body contents as `ctorA`,
different name, flags, return parameters, comments and body comment flags. -/
def ctorB : Function :=
  ⟨⟨"baz", [⟨"x", "u8"⟩], [], false, false, false, []⟩, [⟨"s", false⟩]⟩

/-- Sample contract with imports in one iteration order. -/
def cA : Contract := ⟨"C", ["b", "a"], [], [], [], [], ctor0, [], []⟩

/-- The same contract value with its import set in the other iteration
order. -/
def cB : Contract := ⟨"C", ["a", "b"], [], [], [], [], ctor0, [], []⟩

/-- Sample interface with imports in one iteration order. -/
def iA : Interface := ⟨"I", ["y", "x"], [], [], [], [], []⟩

/-- The same interface value with its import set in the other iteration
order. -/
def iB : Interface := ⟨"I", ["x", "y"], [], [], [], [], []⟩

/-- Sample interface carrying an interface-level comment. -/
def ifaceC : Interface := ⟨"I", [], [], [], [], [], ["hello"]⟩

/-- The same interface without the comment. -/
def ifaceN : Interface := ⟨"I", [], [], [], [], [], []⟩

/-- Sample header with no return parameters. -/
def hdr0 : FunctionHeader := ⟨"emptyRet", [], [], true, false, false, []⟩

/-- Sample header with exactly one return parameter. -/
def hdr1 : FunctionHeader := ⟨"oneRet", [], [⟨"r", "u128"⟩], true, false, false, []⟩

/-- Sample header with two return parameters. -/
def hdr2 : FunctionHeader := ⟨"twoRet", [], [⟨"r", "u128"⟩, ⟨"s", "bool"⟩], true, false, false, []⟩

/-- Sample header carrying one doc comment. -/
def hdrC : FunctionHeader := ⟨"withDoc", [], [], true, false, false, ["doc line"]⟩

/-! ### Helper lemmas about the emitters -/

theorem constructorParams_eq_flatMap (ps : List Param) :
    constructorParams ps =
      ps.flatMap fun p =>
        [Tok.identTok (toSnakeCase p.name), Tok.t ":", Tok.fromStr p.param_type, Tok.t ","] := by
  induction ps with
  | nil => rfl
  | cons p t ih => simp [constructorParams, ih]

theorem constructorBody_eq_map (body : List Statement) :
    constructorBody body = body.map fun st => Tok.fromStr ("// " ++ st.content) := by
  induction body with
  | nil => rfl
  | cons st t ih => simp [constructorBody, ih]

theorem insertionSort_eq_of_perm {l1 l2 : List String} (h : l1.Perm l2) :
    List.insertionSort (· ≤ ·) l1 = List.insertionSort (· ≤ ·) l2 :=
  List.eq_of_perm_of_sorted
    ((List.perm_insertionSort _ l1).trans (h.trans (List.perm_insertionSort _ l2).symm))
    (List.sorted_insertionSort _ l1) (List.sorted_insertionSort _ l2)

theorem assemble_imports_eq_of_perm {l1 l2 : List String} (h : l1.Perm l2) :
    assemble_imports l1 = assemble_imports l2 := by
  rw [assemble_imports, assemble_imports, insertionSort_eq_of_perm h]

/-! ### The claims -/

/-- C2: the import lines emitted by `assemble_imports` are a permutation of
the input set (no duplicates, no additions), in strict ascending lexicographic
order, each emitted as a tokenized fragment, followed by the blank-line
marker.  (`<` on `String` is lexicographic codepoint order, which on UTF-8
agrees with byte order.) -/
theorem C2_imports_sorted_permutation (imports : List String) (hnd : imports.Nodup) :
    assemble_imports imports =
      (List.insertionSort (· ≤ ·) imports).map Tok.fromStr ++ [Tok.blankMarker] ∧
    (List.insertionSort (· ≤ ·) imports).Perm imports ∧
    (List.insertionSort (· ≤ ·) imports).Sorted (· < ·) := by
  refine ⟨rfl, List.perm_insertionSort _ _, ?_⟩
  exact (List.sorted_insertionSort _ _).lt_of_le
    ((List.perm_insertionSort _ imports).nodup_iff.mpr hnd)

theorem C2_witness :
    (["b", "a"] : List String).Nodup ∧
    (assemble_imports ["b", "a"] =
        (List.insertionSort (· ≤ ·) ["b", "a"]).map Tok.fromStr ++ [Tok.blankMarker] ∧
      (List.insertionSort (· ≤ ·) ["b", "a"]).Perm ["b", "a"] ∧
      (List.insertionSort (· ≤ ·) ["b", "a"]).Sorted (· < ·)) :=
  ⟨by decide, C2_imports_sorted_permutation ["b", "a"] (by decide)⟩

/-- C4: `assemble_contract` and `assemble_interface` are deterministic
functions of the CIR value and the version constant; in particular the output
does not depend on the iteration order of the imports hash set (two iteration
orders of the same set are permutations of each other). -/
theorem C4_deterministic (v : String) (c1 c2 : Contract) (i1 i2 : Interface)
    (hn : c1.name = c2.name) (hi : c1.imports.Perm c2.imports)
    (hev : c1.events = c2.events) (hen : c1.enums = c2.enums)
    (hst : c1.structs = c2.structs) (hfl : c1.fields = c2.fields)
    (hco : c1.constructor = c2.constructor) (hfn : c1.functions = c2.functions)
    (hcm : c1.comments = c2.comments)
    (gn : i1.name = i2.name) (gi : i1.imports.Perm i2.imports)
    (gev : i1.events = i2.events) (gen : i1.enums = i2.enums)
    (gst : i1.structs = i2.structs) (gfh : i1.function_headers = i2.function_headers)
    (gcm : i1.comments = i2.comments) :
    assemble_contract v c1 = assemble_contract v c2 ∧
      assemble_interface v i1 = assemble_interface v i2 := by
  constructor
  · rw [assemble_contract, assemble_contract, hn, hev, hen, hst, hfl, hco, hfn, hcm,
      assemble_imports_eq_of_perm hi]
  · rw [assemble_interface, assemble_interface, gn, gev, gen, gst, gfh,
      assemble_imports_eq_of_perm gi]

theorem C4_witness :
    cA.imports.Perm cB.imports ∧ iA.imports.Perm iB.imports ∧
    assemble_contract "1.0.0" cA = assemble_contract "1.0.0" cB ∧
    assemble_interface "1.0.0" iA = assemble_interface "1.0.0" iB := by
  have h := C4_deterministic "1.0.0" cA cB iA iB rfl (by decide) rfl rfl rfl rfl rfl rfl rfl
    rfl (by decide) rfl rfl rfl rfl rfl
  exact ⟨by decide, by decide, h.1, h.2⟩

/-- C5: `assemble_constructor` emits the fixed `#[ink(constructor)] pub fn new`
wrapper around `ink_lang::codegen::initialize_contract`, with parameters
rendered `snake_name: Type,` in input order, and every body statement rendered
as the line comment `// <content>`. -/
theorem C5_constructor_wrapper (f : Function) :
    assemble_constructor f =
      [Tok.t "#[ink(constructor)]", Tok.t "pub fn new", Tok.t "("] ++
        (f.header.params.flatMap fun p =>
          [Tok.identTok (toSnakeCase p.name), Tok.t ":", Tok.fromStr p.param_type, Tok.t ","]) ++
        [Tok.t ")", Tok.t "->", Tok.t "Self", Tok.lbrace,
         Tok.t "ink_lang::codegen::initialize_contract", Tok.t "(",
         Tok.t "|instance: &mut Self|", Tok.lbrace] ++
        (f.body.map fun st => Tok.fromStr ("// " ++ st.content)) ++
        [Tok.rbrace, Tok.t ")", Tok.rbrace, Tok.blankMarker] ∧
    ∀ st ∈ f.body, Tok.fromStr ("// " ++ st.content) ∈ assemble_constructor f := by
  constructor
  · rw [assemble_constructor, constructorParams_eq_flatMap, constructorBody_eq_map]
  · intro st hst
    have hm : Tok.fromStr ("// " ++ st.content) ∈ constructorBody f.body := by
      rw [constructorBody_eq_map]
      exact List.mem_map_of_mem _ hst
    rw [assemble_constructor]
    simp only [List.mem_append]
    exact Or.inl (Or.inr hm)

theorem C5_witness :
    (⟨"a = b", false⟩ : Statement) ∈ sampleCtor.body ∧
      Tok.fromStr ("// " ++ "a = b") ∈ assemble_constructor sampleCtor :=
  ⟨by decide,
   (C5_constructor_wrapper sampleCtor).2 ⟨"a = b", false⟩ (by decide)⟩

/-- C6 counterexample: an interface whose comments sequence is non-empty
produces exactly the same output as the one without comments, and no token of
the output carries the comment text: the interface-level comments are not
emitted at all (the source never reads `interface.comments`). -/
theorem C6_interface_comments_cex :
    ifaceC.comments ≠ [] ∧
    assemble_interface "0.0.0" ifaceC = assemble_interface "0.0.0" ifaceN ∧
    ∀ t ∈ assemble_interface "0.0.0" ifaceC,
      t ≠ Tok.docAttr "hello" ∧ t ≠ Tok.commentMarker "hello" ∧
      t ≠ Tok.fromStr "hello" ∧ t ≠ Tok.t "hello" ∧ t ≠ Tok.identTok "hello" :=
  ⟨by decide, rfl, by decide⟩

/-- C6 (amended): `assemble_interface` ignores the interface-level comments
field entirely; its output is invariant under any change of the comments. -/
theorem C6_interface_comments_ignored (interface : Interface) (cs : List String) (v : String) :
    assemble_interface v { interface with comments := cs } = assemble_interface v interface := rfl

/-- C7 counterexample: with an empty import set the imports emitter does not
contribute nothing — it still emits its trailing blank-line layout marker. -/
theorem C7_empty_imports_cex :
    assemble_imports [] = [Tok.blankMarker] ∧ assemble_imports [] ≠ [] :=
  ⟨rfl, by decide⟩

/-- C7 (amended): empty event, enum, struct, function, function-header and
comment sub-sections emit nothing; the imports emitter with empty input emits
no import tokens but always appends its blank-line marker. -/
theorem C7_empty_sections_amended :
    assemble_events [] = [] ∧ assemble_enums [] = [] ∧ assemble_structs [] = [] ∧
    assemble_functions [] = [] ∧ assemble_function_headers [] = [] ∧
    assemble_contract_comments [] = [] ∧ assemble_imports [] = [Tok.blankMarker] :=
  ⟨rfl, rfl, rfl, rfl, rfl, rfl, rfl⟩

/-- C9: the output of `assemble_constructor` depends only on the parameter
list and the body statements' content strings; the name, flags, return
parameters, comments and body comment flags of the input are never read. -/
theorem C9_constructor_dependence (f g : Function)
    (hp : f.header.params = g.header.params)
    (hb : f.body.map Statement.content = g.body.map Statement.content) :
    assemble_constructor f = assemble_constructor g := by
  have hmap : ∀ l : List Statement,
      constructorBody l = (l.map Statement.content).map fun c => Tok.fromStr ("// " ++ c) := by
    intro l
    induction l with
    | nil => rfl
    | cons a t ih => simp [constructorBody, ih]
  rw [assemble_constructor, assemble_constructor, hp, hmap, hmap, hb]

theorem assemble_functions_cons (f : Function) (t : List Function) (ht : t ≠ []) :
    assemble_functions (f :: t) = assembleFunction f ++ Tok.blankMarker :: assemble_functions t := by
  cases t with
  | nil => exact absurd rfl ht
  | cons g u => rfl

theorem exists_append_of_mem_functions {f : Function} {fs : List Function} (hf : f ∈ fs) :
    ∃ pre post, assemble_functions fs = pre ++ (assembleFunction f ++ post) := by
  induction fs with
  | nil => cases hf
  | cons g t ih =>
    rcases List.mem_cons.mp hf with rfl | hmem
    · cases t with
      | nil => exact ⟨[], [], by simp [assemble_functions]⟩
      | cons u v =>
        exact ⟨[], Tok.blankMarker :: assemble_functions (u :: v), by simp [assemble_functions]⟩
    · obtain ⟨pre, post, hp⟩ := ih hmem
      have ht : t ≠ [] := by rintro rfl; cases hmem
      refine ⟨assembleFunction g ++ Tok.blankMarker :: pre, post, ?_⟩
      rw [assemble_functions_cons g t ht, hp]
      simp

/-- C1: every function of the input appears in the output of
`assemble_functions` as an item that begins with the message attribute exactly
when `external` is set — `#[ink(message, payable)]` when `payable` is also
set, `#[ink(message)]` otherwise — followed by the name `pub fn <snake_name>`;
when `external` is not set, the item begins directly with the name
`fn _<snake_name>` and carries no attribute. -/
theorem C1_message_attribute_and_name (fs : List Function) (f : Function) (hf : f ∈ fs) :
    ∃ pre post,
      assemble_functions fs =
        pre ++
          ((if f.header.external then
              [Tok.t (if f.header.payable then "#[ink(message, payable)]" else "#[ink(message)]"),
               Tok.fromStr ("pub fn " ++ toSnakeCase f.header.name)]
            else
              [Tok.fromStr ("fn _" ++ toSnakeCase f.header.name)]) ++
            ([Tok.t "("] ++ functionView f.header ++ functionParams f.header.params ++
              [Tok.t ")"] ++ functionReturnParams f.header.return_params ++
              [Tok.lbrace] ++ functionBody f.body ++ [Tok.t "todo!()", Tok.rbrace]) ++ post) := by
  obtain ⟨pre, post, hp⟩ := exists_append_of_mem_functions hf
  refine ⟨pre, post, ?_⟩
  rw [hp]
  by_cases he : f.header.external = true
  · by_cases hpay : f.header.payable = true
    · simp [assembleFunction, functionMessage, he, hpay]
    · simp [assembleFunction, functionMessage, he, hpay]
  · simp [assembleFunction, functionMessage, he]

theorem C1_witness :
    sampleFn ∈ [sampleFn] ∧
      ∃ pre post,
        assemble_functions [sampleFn] =
          pre ++
            ((if sampleFn.header.external then
                [Tok.t (if sampleFn.header.payable then "#[ink(message, payable)]"
                        else "#[ink(message)]"),
                 Tok.fromStr ("pub fn " ++ toSnakeCase sampleFn.header.name)]
              else
                [Tok.fromStr ("fn _" ++ toSnakeCase sampleFn.header.name)]) ++
              ([Tok.t "("] ++ functionView sampleFn.header ++
                functionParams sampleFn.header.params ++
                [Tok.t ")"] ++ functionReturnParams sampleFn.header.return_params ++
                [Tok.lbrace] ++ functionBody sampleFn.body ++
                [Tok.t "todo!()", Tok.rbrace]) ++ post) :=
  ⟨by decide, C1_message_attribute_and_name [sampleFn] sampleFn (by decide)⟩

/-- C3: the return annotation (identical logic in `assemble_functions` and
`assemble_function_headers`) is absent when there are no return parameters,
is `-> <type>` without parentheses for exactly one, and is a parenthesised
tuple for two or more. -/
theorem C3_return_annotation_shape (h : FunctionHeader) :
    (h.return_params = [] →
        functionReturnParams h.return_params = [] ∧ headerReturnParams h.return_params = []) ∧
    (∀ p, h.return_params = [p] →
        functionReturnParams h.return_params = [Tok.t "->", Tok.fromStr p.param_type] ∧
        headerReturnParams h.return_params = [Tok.t "->", Tok.fromStr p.param_type]) ∧
    (2 ≤ h.return_params.length →
        functionReturnParams h.return_params =
          [Tok.t "->", Tok.t "("] ++ returnTypesList h.return_params ++ [Tok.t ")"] ∧
        headerReturnParams h.return_params =
          [Tok.t "->", Tok.t "("] ++ headerTypesList h.return_params ++ [Tok.t ")"]) := by
  refine ⟨?_, ?_, ?_⟩
  · intro he; rw [he]; exact ⟨rfl, rfl⟩
  · intro p hp; rw [hp]; exact ⟨rfl, rfl⟩
  · intro h2
    obtain ⟨a, b, t, hrp⟩ : ∃ a b t, h.return_params = a :: b :: t := by
      match hx : h.return_params with
      | [] => rw [hx] at h2; simp at h2
      | [a] => rw [hx] at h2; simp at h2
      | a :: b :: t => exact ⟨a, b, t, rfl⟩
    rw [hrp]
    constructor
    · rw [functionReturnParams, if_neg (by simp), if_pos (by simp)]
    · rw [headerReturnParams, if_neg (by simp), if_pos (by simp)]

theorem C3_witness :
    functionReturnParams hdr0.return_params = [] ∧
    functionReturnParams hdr1.return_params = [Tok.t "->", Tok.fromStr "u128"] ∧
    headerReturnParams hdr2.return_params =
      [Tok.t "->", Tok.t "("] ++ headerTypesList hdr2.return_params ++ [Tok.t ")"] :=
  ⟨((C3_return_annotation_shape hdr0).1 rfl).1,
   ((C3_return_annotation_shape hdr1).2.1 ⟨"r", "u128"⟩ rfl).1,
   ((C3_return_annotation_shape hdr2).2.2 (by decide)).2⟩

theorem docAttr_not_mem_functionMessage (h : FunctionHeader) (s : String) :
    Tok.docAttr s ∉ functionMessage h := by
  rw [functionMessage]
  split
  · split <;> simp
  · simp

theorem docAttr_not_mem_functionView (h : FunctionHeader) (s : String) :
    Tok.docAttr s ∉ functionView h := by
  simp [functionView]

theorem docAttr_not_mem_functionParams (ps : List Param) (s : String) :
    Tok.docAttr s ∉ functionParams ps := by
  induction ps with
  | nil => simp [functionParams]
  | cons p t ih => simp [functionParams, ih]

theorem docAttr_not_mem_returnTypesList (ps : List Param) (s : String) :
    Tok.docAttr s ∉ returnTypesList ps := by
  induction ps with
  | nil => simp [returnTypesList]
  | cons p t ih =>
    cases t with
    | nil => simp [returnTypesList]
    | cons q u => simp [returnTypesList]; exact ih

theorem docAttr_not_mem_functionReturnParams (ps : List Param) (s : String) :
    Tok.docAttr s ∉ functionReturnParams ps := by
  rw [functionReturnParams]
  split
  · simp
  · split
    · simp [docAttr_not_mem_returnTypesList]
    · simp [docAttr_not_mem_returnTypesList]

theorem docAttr_not_mem_functionBody (body : List Statement) (s : String) :
    Tok.docAttr s ∉ functionBody body := by
  induction body with
  | nil => simp [functionBody]
  | cons st t ih => cases hc : st.comment <;> simp [functionBody, hc, ih]

theorem docAttr_not_mem_assembleFunction (f : Function) (s : String) :
    Tok.docAttr s ∉ assembleFunction f := by
  simp [assembleFunction, docAttr_not_mem_functionMessage, docAttr_not_mem_functionView,
    docAttr_not_mem_functionParams, docAttr_not_mem_functionReturnParams,
    docAttr_not_mem_functionBody]

theorem docAttr_not_mem_assemble_functions (fs : List Function) (s : String) :
    Tok.docAttr s ∉ assemble_functions fs := by
  induction fs with
  | nil => simp [assemble_functions]
  | cons f t ih =>
    cases t with
    | nil => simpa [assemble_functions] using docAttr_not_mem_assembleFunction f s
    | cons g u =>
      simp [assemble_functions_cons f (g :: u) (by simp),
        docAttr_not_mem_assembleFunction f s]
      exact ih

theorem docAttr_not_mem_headerMessage (h : FunctionHeader) (s : String) :
    Tok.docAttr s ∉ headerMessage h := by
  rw [headerMessage]
  split
  · split <;> simp
  · simp

theorem docAttr_not_mem_headerView (h : FunctionHeader) (s : String) :
    Tok.docAttr s ∉ headerView h := by
  simp [headerView]

theorem docAttr_not_mem_headerParams (ps : List Param) (s : String) :
    Tok.docAttr s ∉ headerParams ps := by
  induction ps with
  | nil => simp [headerParams]
  | cons p t ih => simp [headerParams, ih]

theorem docAttr_not_mem_headerTypesList (ps : List Param) (s : String) :
    Tok.docAttr s ∉ headerTypesList ps := by
  induction ps with
  | nil => simp [headerTypesList]
  | cons p t ih =>
    cases t with
    | nil => simp [headerTypesList]
    | cons q u => simp [headerTypesList]; exact ih

theorem docAttr_not_mem_headerReturnParams (ps : List Param) (s : String) :
    Tok.docAttr s ∉ headerReturnParams ps := by
  rw [headerReturnParams]
  split
  · simp
  · split
    · simp [docAttr_not_mem_headerTypesList]
    · simp [docAttr_not_mem_headerTypesList]

theorem isDocAttr_false_of_forall_not_mem {l : List Tok} (hl : ∀ s, Tok.docAttr s ∉ l)
    {a : Tok} (ha : a ∈ l) : isDocAttr a = false := by
  cases a with
  | docAttr s => exact absurd ha (hl s)
  | t s => rfl
  | fromStr s => rfl
  | identTok s => rfl
  | commentMarker s => rfl
  | blankMarker => rfl
  | lbrace => rfl
  | rbrace => rfl

theorem countP_docAttr_eq_zero {l : List Tok} (hl : ∀ s, Tok.docAttr s ∉ l) :
    l.countP isDocAttr = 0 :=
  List.countP_eq_zero.mpr fun a ha => by
    simp [isDocAttr_false_of_forall_not_mem hl ha]

theorem countP_docAttr_headerItem (h : FunctionHeader) :
    (headerItem h).countP isDocAttr = h.comments.length := by
  rw [headerItem]
  simp only [List.countP_append]
  rw [countP_docAttr_eq_zero (docAttr_not_mem_headerMessage h),
    countP_docAttr_eq_zero (docAttr_not_mem_headerView h),
    countP_docAttr_eq_zero (docAttr_not_mem_headerParams h.params),
    countP_docAttr_eq_zero (docAttr_not_mem_headerReturnParams h.return_params),
    List.countP_map]
  simp [Function.comp, isDocAttr]

theorem assemble_function_headers_cons (h : FunctionHeader) (t : List FunctionHeader)
    (ht : t ≠ []) :
    assemble_function_headers (h :: t) =
      headerItem h ++ Tok.blankMarker :: assemble_function_headers t := by
  cases t with
  | nil => exact absurd rfl ht
  | cons g u => rfl

/-- C10: `assemble_functions` never emits a doc attribute and its output is
invariant under changes of the header comments, unlike
`assemble_function_headers`, which emits exactly one doc attribute per comment
string. -/
theorem C10_functions_no_doc_attrs :
    (∀ (fs : List Function) (s : String), Tok.docAttr s ∉ assemble_functions fs) ∧
    (∀ (f : Function) (cs : List String),
        assemble_functions [{ f with header := { f.header with comments := cs } }] =
          assemble_functions [f]) ∧
    (∀ hs : List FunctionHeader,
        (assemble_function_headers hs).countP isDocAttr =
          (hs.map fun h => h.comments.length).sum) := by
  refine ⟨docAttr_not_mem_assemble_functions, fun f cs => rfl, ?_⟩
  intro hs
  induction hs with
  | nil => rfl
  | cons h t ih =>
    cases t with
    | nil => simpa [assemble_function_headers] using countP_docAttr_headerItem h
    | cons g u =>
      rw [assemble_function_headers_cons h (g :: u) (by simp)]
      simp only [List.countP_append, List.countP_cons, List.map_cons, List.sum_cons]
      rw [countP_docAttr_headerItem h, ih]
      simp [isDocAttr]

theorem C10_witness :
    Tok.docAttr "doc line" ∉ assemble_functions [sampleFn] ∧
    assemble_functions [{ sampleFn with header := { sampleFn.header with comments := ["x"] } }] =
      assemble_functions [sampleFn] ∧
    (assemble_function_headers [hdrC]).countP isDocAttr = 1 := by
  refine ⟨C10_functions_no_doc_attrs.1 [sampleFn] "doc line",
          C10_functions_no_doc_attrs.2.1 sampleFn ["x"], ?_⟩
  simpa [hdrC] using C10_functions_no_doc_attrs.2.2 [hdrC]

theorem C9_witness :
    ctorA.header.params = ctorB.header.params ∧
    ctorA.body.map Statement.content = ctorB.body.map Statement.content ∧
    ctorA.header.name ≠ ctorB.header.name ∧
    ctorA.header.external ≠ ctorB.header.external ∧
    assemble_constructor ctorA = assemble_constructor ctorB :=
  ⟨rfl, rfl, by decide, by decide, C9_constructor_dependence ctorA ctorB rfl rfl⟩

/-! ### The snake-casing development (claim C8) -/

theorem toNat_ofNat_valid {n : Nat} (h : n < 55296) : (Char.ofNat n).toNat = n := by
  rw [Char.ofNat, dif_pos (Or.inl h)]
  rfl

theorem lowerChar_toNat (c : Char) :
    (lowerChar c).toNat = if charUpper c then c.toNat + 32 else c.toNat := by
  rw [lowerChar]
  by_cases h : charUpper c = true
  · have hb : 65 ≤ c.toNat ∧ c.toNat ≤ 90 := by simpa [charUpper] using h
    rw [if_pos h, if_pos h, toNat_ofNat_valid (by omega)]
  · rw [if_neg h, if_neg h]

theorem lowerChar_toNat_cases (c : Char) :
    ((lowerChar c).toNat = c.toNat + 32 ∧ 65 ≤ c.toNat ∧ c.toNat ≤ 90) ∨
      ((lowerChar c).toNat = c.toNat ∧ ¬(65 ≤ c.toNat ∧ c.toNat ≤ 90)) := by
  have h1 := lowerChar_toNat c
  by_cases hu : charUpper c = true
  · left
    rw [if_pos hu] at h1
    exact ⟨h1, by simpa [charUpper] using hu⟩
  · right
    rw [if_neg hu] at h1
    exact ⟨h1, by simpa [charUpper] using hu⟩

theorem charUpper_lowerChar (c : Char) : charUpper (lowerChar c) = false := by
  have h := lowerChar_toNat_cases c
  simp only [charUpper, decide_eq_false_iff_not]
  omega

theorem isDelim_lowerChar (c : Char) : isDelim (lowerChar c) = isDelim c := by
  have h := lowerChar_toNat_cases c
  simp only [isDelim, decide_eq_decide]
  omega

theorem lowerChar_eq_of_not_upper {c : Char} (h : charUpper c = false) : lowerChar c = c := by
  rw [lowerChar, if_neg (by simp [h])]

theorem isBoundary2_lowerChar {a b : Char} (h : isBoundary2 a b = false) :
    isBoundary2 (lowerChar a) (lowerChar b) = false := by
  have ha := lowerChar_toNat_cases a
  have hb := lowerChar_toNat_cases b
  simp only [isBoundary2, charLower, charUpper, charDigit, Bool.or_eq_false_iff,
    Bool.and_eq_false_iff, decide_eq_false_iff_not] at h ⊢
  omega

theorem acronymBoundary_of_not_upper {a : Char} (h : charUpper a = false) :
    ∀ l, acronymBoundary a l = false := by
  intro l
  match l with
  | [] => rfl
  | [b] => rfl
  | b :: c :: t => simp [acronymBoundary, h]

theorem isBoundary2_underscore (a : Char) : isBoundary2 a '_' = false := by
  have h1 : charUpper '_' = false := by decide
  have h2 : charLower '_' = false := by decide
  have h3 : charDigit '_' = false := by decide
  simp [isBoundary2, h1, h2, h3]

theorem boundaryAfter_underscore (a : Char) (rest : List Char) :
    boundaryAfter a ('_' :: rest) = false := by
  rw [boundaryAfter, isBoundary2_underscore]
  cases rest with
  | nil => rfl
  | cons c t =>
    have h1 : charUpper '_' = false := by decide
    simp [acronymBoundary, h1]

theorem wordsAux_cons_delim {c : Char} (h : isDelim c = true) (acc cs : List Char) :
    wordsAux acc (c :: cs) = acc.reverse :: wordsAux [] cs := by
  simp [wordsAux, h]

theorem wordsAux_cons_boundary {c : Char} {cs : List Char} (h1 : isDelim c = false)
    (h2 : boundaryAfter c cs = true) (acc : List Char) :
    wordsAux acc (c :: cs) = (c :: acc).reverse :: wordsAux [] cs := by
  simp [wordsAux, h1, h2]

theorem wordsAux_cons_accum {c : Char} {cs : List Char} (h1 : isDelim c = false)
    (h2 : boundaryAfter c cs = false) (acc : List Char) :
    wordsAux acc (c :: cs) = wordsAux (c :: acc) cs := by
  simp [wordsAux, h1, h2]

theorem cleanChar_split {a : Char} (h : cleanChar a = true) :
    isDelim a = false ∧ charUpper a = false := by
  simpa [cleanChar, Bool.and_eq_true, Bool.not_eq_true'] using h

theorem cleanWord_cons (a : Char) (t : List Char) (hw : cleanWord (a :: t) = true) :
    cleanChar a = true ∧ cleanWord t = true ∧
      ∀ b u, t = b :: u → isBoundary2 a b = false := by
  cases t with
  | nil =>
    refine ⟨by simpa [cleanWord] using hw, rfl, ?_⟩
    intro b u h
    cases h
  | cons b u =>
    rw [show cleanWord (a :: b :: u) =
      (cleanChar a && !isBoundary2 a b && cleanWord (b :: u)) from rfl] at hw
    simp only [Bool.and_eq_true, Bool.not_eq_true'] at hw
    refine ⟨hw.1.1, hw.2, ?_⟩
    intro b' u' h
    cases h
    exact hw.1.2

theorem wordsAux_clean_nil (w : List Char) : ∀ acc, cleanWord w = true →
    wordsAux acc w = [acc.reverse ++ w] := by
  induction w with
  | nil =>
    intro acc _
    simp [wordsAux]
  | cons a t ih =>
    intro acc hw
    obtain ⟨hca, hct, hcb⟩ := cleanWord_cons a t hw
    obtain ⟨hda, hua⟩ := cleanChar_split hca
    have hba : boundaryAfter a t = false := by
      cases t with
      | nil => rfl
      | cons b u =>
        rw [boundaryAfter, hcb b u rfl, acronymBoundary_of_not_upper hua]
        rfl
    rw [wordsAux_cons_accum hda hba, ih (a :: acc) hct]
    simp

theorem wordsAux_clean_underscore (w : List Char) : ∀ acc rest, cleanWord w = true →
    wordsAux acc (w ++ '_' :: rest) = (acc.reverse ++ w) :: wordsAux [] rest := by
  induction w with
  | nil =>
    intro acc rest _
    rw [List.nil_append, wordsAux_cons_delim (by decide)]
    simp
  | cons a t ih =>
    intro acc rest hw
    obtain ⟨hca, hct, hcb⟩ := cleanWord_cons a t hw
    obtain ⟨hda, hua⟩ := cleanChar_split hca
    have hba : boundaryAfter a (t ++ '_' :: rest) = false := by
      cases t with
      | nil => simpa using boundaryAfter_underscore a rest
      | cons b u =>
        rw [List.cons_append, boundaryAfter, hcb b u rfl, acronymBoundary_of_not_upper hua]
        rfl
    rw [List.cons_append, wordsAux_cons_accum hda hba, ih (a :: acc) rest hct]
    simp

theorem wordsAux_join : ∀ ws : List (List Char), ws ≠ [] →
    (∀ w ∈ ws, w ≠ [] ∧ cleanWord w = true) → wordsAux [] (joinUnderscore ws) = ws := by
  intro ws
  induction ws with
  | nil =>
    intro h
    exact absurd rfl h
  | cons w t ih =>
    intro _ hall
    cases t with
    | nil =>
      rw [show joinUnderscore [w] = w from rfl, wordsAux_clean_nil w [] (hall w (by simp)).2]
      simp
    | cons v u =>
      rw [show joinUnderscore (w :: v :: u) = w ++ '_' :: joinUnderscore (v :: u) from rfl,
        wordsAux_clean_underscore w [] _ (hall w (by simp)).2,
        ih (by simp) fun x hx => hall x (List.mem_cons_of_mem w hx)]
      simp

theorem noB2_snoc : ∀ (xs : List Char) (c : Char), noB2 xs = true → isDelim c = false →
    (∀ b t, xs = t ++ [b] → isBoundary2 b c = false) → noB2 (xs ++ [c]) = true := by
  intro xs
  induction xs with
  | nil =>
    intro c _ hc _
    simp [noB2, hc]
  | cons a t ih =>
    intro c h1 h2 h3
    cases t with
    | nil =>
      have hd : isDelim a = false := by simpa [noB2] using h1
      have hb : isBoundary2 a c = false := h3 a [] rfl
      simp [noB2, hd, hb, h2]
    | cons b u =>
      simp only [noB2, Bool.and_eq_true, Bool.not_eq_true'] at h1
      have hrec : noB2 ((b :: u) ++ [c]) = true := by
        apply ih c h1.2 h2
        intro b' t' ht'
        exact h3 b' (a :: t') (by rw [show (a :: t') ++ [b'] = a :: (t' ++ [b']) from rfl, ← ht'])
      rw [show (a :: b :: u) ++ [c] = a :: b :: (u ++ [c]) from rfl]
      rw [show (b :: u) ++ [c] = b :: (u ++ [c]) from rfl] at hrec
      simp [noB2, h1.1.1, h1.1.2, hrec]

theorem wordsAux_noB2 : ∀ (l acc : List Char), noB2 acc.reverse = true →
    (∀ a as b bs, acc = a :: as → l = b :: bs → isBoundary2 a b = false) →
    ∀ w ∈ wordsAux acc l, noB2 w = true := by
  intro l
  induction l with
  | nil =>
    intro acc hacc _ w hw
    simp only [wordsAux, List.mem_singleton] at hw
    subst hw
    exact hacc
  | cons c cs ih =>
    intro acc hacc hlink w hw
    have hsnoc : isDelim c = false → noB2 ((c :: acc).reverse) = true := by
      intro hd'
      rw [List.reverse_cons]
      apply noB2_snoc acc.reverse c hacc hd'
      intro b t ht
      cases acc with
      | nil => simp at ht
      | cons a as =>
        have hba : b = a := by
          have hg : ((a :: as).reverse).getLast? = some a := by
            rw [List.reverse_cons]
            exact List.getLast?_concat _
          rw [ht, List.getLast?_concat] at hg
          exact Option.some.inj hg
        subst hba
        exact hlink b as c cs rfl rfl
    by_cases hd : isDelim c = true
    · rw [wordsAux_cons_delim hd] at hw
      rcases List.mem_cons.mp hw with rfl | hw'
      · exact hacc
      · refine ih [] (by rfl) ?_ w hw'
        intro a as b bs h _
        cases h
    · have hd' : isDelim c = false := by simpa using hd
      by_cases hb : boundaryAfter c cs = true
      · rw [wordsAux_cons_boundary hd' hb] at hw
        rcases List.mem_cons.mp hw with rfl | hw'
        · exact hsnoc hd'
        · refine ih [] (by rfl) ?_ w hw'
          intro a as b bs h _
          cases h
      · have hb' : boundaryAfter c cs = false := by simpa using hb
        rw [wordsAux_cons_accum hd' hb'] at hw
        refine ih (c :: acc) (hsnoc hd') ?_ w hw
        intro a as b bs ha hcs
        injection ha with ha1 ha2
        subst ha1
        rw [hcs, boundaryAfter] at hb'
        simp only [Bool.or_eq_false_iff] at hb'
        exact hb'.1

theorem cleanWord_map_lowerChar : ∀ w, noB2 w = true → cleanWord (w.map lowerChar) = true := by
  intro w
  induction w with
  | nil =>
    intro _
    rfl
  | cons a t ih =>
    intro h
    cases t with
    | nil =>
      have hd : isDelim a = false := by simpa [noB2] using h
      simp [cleanWord, cleanChar, isDelim_lowerChar, hd, charUpper_lowerChar]
    | cons b u =>
      simp only [noB2, Bool.and_eq_true, Bool.not_eq_true'] at h
      have ht := ih h.2
      simp only [List.map_cons] at ht ⊢
      rw [show cleanWord (lowerChar a :: lowerChar b :: u.map lowerChar) =
        (cleanChar (lowerChar a) && !isBoundary2 (lowerChar a) (lowerChar b) &&
          cleanWord (lowerChar b :: u.map lowerChar)) from rfl, ht]
      simp [cleanChar, isDelim_lowerChar, h.1.1, charUpper_lowerChar,
        isBoundary2_lowerChar h.1.2]

theorem map_lowerChar_eq_of_cleanWord : ∀ w, cleanWord w = true → w.map lowerChar = w := by
  intro w
  induction w with
  | nil =>
    intro _
    rfl
  | cons a t ih =>
    intro h
    obtain ⟨hca, hct, _⟩ := cleanWord_cons a t h
    simp [lowerChar_eq_of_not_upper (cleanChar_split hca).2, ih hct]

theorem map_map_lowerChar_eq (ws : List (List Char)) (h : ∀ w ∈ ws, cleanWord w = true) :
    ws.map (List.map lowerChar) = ws := by
  induction ws with
  | nil => rfl
  | cons w t ih =>
    simp only [List.map_cons]
    rw [map_lowerChar_eq_of_cleanWord w (h w (by simp)),
      ih fun x hx => h x (List.mem_cons_of_mem w hx)]

theorem filter_nonempty_eq (ws : List (List Char)) (h : ∀ w ∈ ws, w ≠ []) :
    (ws.filter fun w => !w.isEmpty) = ws :=
  List.filter_eq_self.mpr fun w hw => by simp [List.isEmpty_iff, h w hw]

theorem toSnakeList_words_clean (l : List Char) :
    ∀ w ∈ ((wordsAux [] l).filter fun w => !w.isEmpty).map (List.map lowerChar),
      w ≠ [] ∧ cleanWord w = true := by
  intro w hw
  simp only [List.mem_map] at hw
  obtain ⟨v, hv, rfl⟩ := hw
  have hvmem := List.mem_of_mem_filter hv
  have hvne : v ≠ [] := by
    have hp := List.of_mem_filter hv
    simpa [List.isEmpty_iff] using hp
  have hnb : noB2 v = true := by
    refine wordsAux_noB2 l [] (by rfl) ?_ v hvmem
    intro a as b bs h _
    cases h
  refine ⟨?_, cleanWord_map_lowerChar v hnb⟩
  simpa [List.map_eq_nil_iff] using hvne

theorem joinUnderscore_fixed (ws : List (List Char))
    (h : ∀ w ∈ ws, w ≠ [] ∧ cleanWord w = true) :
    toSnakeList (joinUnderscore ws) = joinUnderscore ws := by
  by_cases hne : ws = []
  · rw [hne]
    rfl
  · rw [toSnakeList, wordsAux_join ws hne h,
      filter_nonempty_eq ws fun w hw => (h w hw).1,
      map_map_lowerChar_eq ws fun w hw => (h w hw).2]

/-- C8: the snake-casing step is idempotent — applying it twice to any string
yields the same result as applying it once.  (Spec-modelled: the conversion is
provided by the external `convert_case` crate; see `toSnakeCase`.) -/
theorem C8_snake_idempotent (s : String) : toSnakeCase (toSnakeCase s) = toSnakeCase s := by
  simp only [toSnakeCase]
  rw [show toSnakeList (toSnakeList s.data) = toSnakeList s.data from
    joinUnderscore_fixed _ (toSnakeList_words_clean s.data)]

end Sol2Ink
